import Mathlib

/-!
Verification of the routing library core: the routing message filter
(`src/routing_message_filter.rs`) and the bootstrapping peer state
(`src/states/bootstrapping_peer.rs`), shallowly embedded in Lean.

Machine integers are modelled as `Nat`; time is an explicit `Nat`
parameter threaded through the time-expiring caches; externally visible
side effects (sends, disconnects, transport bootstrap) are collected in
an explicit effect list.
-/

set_option autoImplicit false

/-! ## Basic types -/

/-- 256-bit XOR name, modelled as `Nat`. -/
abbrev XorName := Nat

/-- 32-byte digest (`Digest256`), modelled as `Nat`. -/
abbrev Digest256 := Nat

/-- Socket address, modelled as `Nat`. -/
abbrev SocketAddr := Nat

/-- Width of a `XorName` in bits. -/
def XOR_NAME_BITS : Nat := 256

/-- Public identity; the node's name is derived from it. -/
structure PublicId where
  name : XorName
deriving DecidableEq, Repr

/-- Full identity: public part plus secret key material (modelled as a seed). -/
structure FullId where
  public_id : PublicId
  secret_seed : Nat
deriving DecidableEq, Repr

/-- Modelled from the spec: `Prefix` from the `xor_space` module (not under
`src/`), a pair `(bit_count, value)` where only the top `bit_count` bits of
`value` are significant.  Named `Pfx` because `Prefix`-style names are not
valid Lean identifiers here. -/
structure Pfx where
  bit_count : Nat
  value : XorName
deriving DecidableEq, Repr

/-- Size of the block of names sharing this prefix: `2 ^ (W - bit_count)`. -/
def Pfx.chunk (p : Pfx) : Nat := 2 ^ (XOR_NAME_BITS - p.bit_count)

/-- Modelled from the spec: `Prefix::new(bit_count, name)` builds the prefix
of the given length taken from `name`. -/
def Pfx.new (bit_count : Nat) (name : XorName) : Pfx := ⟨bit_count, name⟩

/-- Smallest name matching the prefix. -/
def Pfx.lowerBound (p : Pfx) : XorName := p.value / p.chunk * p.chunk

/-- Modelled from the spec: `matches` is exact, the top `bit_count` bits agree. -/
def Pfx.matches (p : Pfx) (name : XorName) : Bool :=
  decide (name / p.chunk = p.value / p.chunk)

/-- Modelled from the spec: `range_inclusive`, the smallest and largest name
matching the prefix. -/
def Pfx.rangeInclusive (p : Pfx) : XorName × XorName :=
  (p.lowerBound, p.lowerBound + (p.chunk - 1))

/-- Destination location of a message. -/
inductive DstLocation where
| Node (name : XorName)
| Section (name : XorName)
| PrefixSection (p : Pfx)
| Direct
deriving DecidableEq, Repr

/-- Modelled from the spec: the parts of `MessageWithBytes` (not under `src/`)
that the routing message filter reads - the message destination and the
precomputed full crypto hash of the canonical serialised bytes. -/
structure MessageWithBytes where
  message_dst : DstLocation
  full_crypto_hash : Digest256
deriving DecidableEq, Repr

/-! ## Routing message filter (`src/routing_message_filter.rs`) -/

def INCOMING_EXPIRY_DURATION_SECS : Nat := 60 * 20

def OUTGOING_EXPIRY_DURATION_SECS : Nat := 60 * 10

/-- Result of message filtering (`FilteringResult`). -/
inductive FilteringResult where
| NewMessage
| KnownMessage
deriving DecidableEq, Repr

def FilteringResult.is_new : FilteringResult → Bool
| .NewMessage => true
| .KnownMessage => false

/-- One entry of the incoming `MessageFilter`: key, insertion count within the
live window, and the time of the last insertion. -/
structure IncEntry where
  key : Digest256
  count : Nat
  time : Nat
deriving DecidableEq, Repr

/-- Modelled from the spec: the generic time-expiring `MessageFilter` of the
`message_filter` module (not under `src/`), instantiated at `Digest256` keys.
Entries older than the expiry duration are evicted lazily on every mutating
call; `insert` returns how many times the key has been inserted within its
live window. -/
abbrev MessageFilter := List IncEntry

/-- Evict entries older than the incoming expiry duration. -/
def pruneIncoming (now : Nat) (l : MessageFilter) : MessageFilter :=
  l.filter (fun e => decide (now - e.time ≤ INCOMING_EXPIRY_DURATION_SECS))

/-- Find the live entry for a digest, if any. -/
def lookupIncoming (d : Digest256) (l : MessageFilter) : Option IncEntry :=
  l.find? (fun e => decide (e.key = d))

/-- Modelled from the spec: `insert` bumps the count for the key, refreshes its
expiry time and returns the resulting count. -/
def insertIncoming (now : Nat) (d : Digest256) (l : MessageFilter) :
    Nat × MessageFilter :=
  match lookupIncoming d l with
  | some e => (e.count + 1, ⟨d, e.count + 1, now⟩ :: l.filter (fun x => decide (¬ x.key = d)))
  | none => (1, ⟨d, 1, now⟩ :: l)

/-- One entry of the outgoing LRU cache: `(digest, peer)` key and the time of
the last insertion. -/
structure OutEntry where
  digest : Digest256
  peer : PublicId
  time : Nat
deriving DecidableEq, Repr

/-- Modelled from the spec: the time-expiring LRU cache used for the outgoing
filter, mapping `(Digest256, PublicId)` to `()`. -/
abbrev LruCache := List OutEntry

/-- Evict entries older than the outgoing expiry duration. -/
def pruneOutgoing (now : Nat) (l : LruCache) : LruCache :=
  l.filter (fun e => decide (now - e.time ≤ OUTGOING_EXPIRY_DURATION_SECS))

/-- Find the live entry for a `(digest, peer)` key, if any. -/
def lookupOutgoing (d : Digest256) (p : PublicId) (l : LruCache) : Option OutEntry :=
  l.find? (fun e => decide (e.digest = d ∧ e.peer = p))

/-- Modelled from the spec: LRU-cache `insert`, returning whether a prior
entry existed (the `Option` result of the Rust `insert` being `Some`). -/
def insertOutgoing (now : Nat) (d : Digest256) (p : PublicId) (l : LruCache) :
    Bool × LruCache :=
  match lookupOutgoing d p l with
  | some _ => (true, ⟨d, p, now⟩ :: l.filter (fun e => decide (¬ (e.digest = d ∧ e.peer = p))))
  | none => (false, ⟨d, p, now⟩ :: l)

/-- `RoutingMessageFilter`: incoming and outgoing deduplication caches. -/
structure RoutingMessageFilter where
  incoming : MessageFilter
  outgoing : LruCache
deriving DecidableEq, Repr

/-- `RoutingMessageFilter::new`. -/
def RoutingMessageFilter.new : RoutingMessageFilter := ⟨[], []⟩

/-- `RoutingMessageFilter::filter_incoming`: direct messages are not filtered;
otherwise insert the hash and report `KnownMessage` when the count exceeds 1. -/
def filter_incoming (now : Nat) (msg : MessageWithBytes) (f : RoutingMessageFilter) :
    FilteringResult × RoutingMessageFilter :=
  match msg.message_dst with
  | .Direct => (.NewMessage, f)
  | _ =>
    let hash := msg.full_crypto_hash
    let res := insertIncoming now hash (pruneIncoming now f.incoming)
    (if 1 < res.1 then .KnownMessage else .NewMessage, { f with incoming := res.2 })

/-- `RoutingMessageFilter::filter_outgoing`: direct messages are not filtered;
otherwise insert `(hash, pub_id)` and report `KnownMessage` when a prior entry
existed. -/
def filter_outgoing (now : Nat) (msg : MessageWithBytes) (pub_id : PublicId)
    (f : RoutingMessageFilter) : FilteringResult × RoutingMessageFilter :=
  match msg.message_dst with
  | .Direct => (.NewMessage, f)
  | _ =>
    let hash := msg.full_crypto_hash
    let res := insertOutgoing now hash pub_id (pruneOutgoing now f.outgoing)
    (if res.1 then .KnownMessage else .NewMessage, { f with outgoing := res.2 })

/-- Modelled from the spec: producing `MessageWithBytes` serialises the message
(code not under `src/`), which can fail.  Following the source comment on
`filter_outgoing` ("Return `KnownMessage` also if hashing the message fails"),
this variant takes the hash as an `Option` and treats `none` as `KnownMessage`,
leaving the caches untouched. -/
def filter_outgoing_checked (now : Nat) (dst : DstLocation) (hashResult : Option Digest256)
    (pub_id : PublicId) (f : RoutingMessageFilter) : FilteringResult × RoutingMessageFilter :=
  match dst with
  | .Direct => (.NewMessage, f)
  | _ =>
    match hashResult with
    | none => (.KnownMessage, f)
    | some hash =>
      let res := insertOutgoing now hash pub_id (pruneOutgoing now f.outgoing)
      (if res.1 then .KnownMessage else .NewMessage, { f with outgoing := res.2 })

/-! ## First theorems: the Direct bypass and the hash-failure path -/

/-- C3: a message whose destination is `Direct` yields `NewMessage` from both
filters, at any time, for any peer, and neither call changes the filter state. -/
theorem direct_bypasses_both_filters (t1 t2 : Nat) (msg : MessageWithBytes)
    (pub_id : PublicId) (f : RoutingMessageFilter)
    (h : msg.message_dst = DstLocation.Direct) :
    filter_incoming t1 msg f = (FilteringResult.NewMessage, f) ∧
    filter_outgoing t2 msg pub_id f = (FilteringResult.NewMessage, f) := by
  unfold filter_incoming filter_outgoing
  rw [h]
  exact ⟨rfl, rfl⟩

/-- Witness for C3 at a concrete direct message and filter state. -/
theorem direct_bypasses_both_filters_witness :
    filter_incoming 0 ⟨DstLocation.Direct, 7⟩ RoutingMessageFilter.new
      = (FilteringResult.NewMessage, RoutingMessageFilter.new) ∧
    filter_outgoing 5 ⟨DstLocation.Direct, 7⟩ ⟨3⟩ RoutingMessageFilter.new
      = (FilteringResult.NewMessage, RoutingMessageFilter.new) :=
  direct_bypasses_both_filters 0 5 ⟨DstLocation.Direct, 7⟩ ⟨3⟩ RoutingMessageFilter.new rfl

/-- C9: when hashing the outbound message fails, the outgoing filter reports
`KnownMessage` (so the message is not sent), for every peer and filter state. -/
theorem hash_failure_gives_known_message (now : Nat) (dst : DstLocation)
    (pub_id : PublicId) (f : RoutingMessageFilter) (h : dst ≠ DstLocation.Direct) :
    filter_outgoing_checked now dst none pub_id f = (FilteringResult.KnownMessage, f) := by
  unfold filter_outgoing_checked
  cases dst with
  | Direct => exact absurd rfl h
  | Node n => rfl
  | Section n => rfl
  | PrefixSection p => rfl

/-- Witness for C9 at a concrete destination, peer and filter state. -/
theorem hash_failure_gives_known_message_witness :
    filter_outgoing_checked 3 (DstLocation.Node 9) none ⟨4⟩ RoutingMessageFilter.new
      = (FilteringResult.KnownMessage, RoutingMessageFilter.new) :=
  hash_failure_gives_known_message 3 (DstLocation.Node 9) ⟨4⟩ RoutingMessageFilter.new
    (by decide)

/-! ## Helper equations for the filter functions -/

theorem filter_incoming_direct_eq (now : Nat) (msg : MessageWithBytes)
    (f : RoutingMessageFilter) (h : msg.message_dst = DstLocation.Direct) :
    filter_incoming now msg f = (FilteringResult.NewMessage, f) := by
  unfold filter_incoming
  rw [h]

theorem filter_outgoing_direct_eq (now : Nat) (msg : MessageWithBytes) (pub_id : PublicId)
    (f : RoutingMessageFilter) (h : msg.message_dst = DstLocation.Direct) :
    filter_outgoing now msg pub_id f = (FilteringResult.NewMessage, f) := by
  unfold filter_outgoing
  rw [h]

theorem filter_incoming_not_direct_eq (now : Nat) (msg : MessageWithBytes)
    (f : RoutingMessageFilter) (h : msg.message_dst ≠ DstLocation.Direct) :
    filter_incoming now msg f =
      ((if 1 < (insertIncoming now msg.full_crypto_hash (pruneIncoming now f.incoming)).1
        then FilteringResult.KnownMessage else FilteringResult.NewMessage),
       { f with incoming := (insertIncoming now msg.full_crypto_hash (pruneIncoming now f.incoming)).2 }) := by
  unfold filter_incoming
  cases hd : msg.message_dst with
  | Direct => exact absurd hd h
  | Node n => rfl
  | Section n => rfl
  | PrefixSection p => rfl

theorem filter_outgoing_not_direct_eq (now : Nat) (msg : MessageWithBytes) (pub_id : PublicId)
    (f : RoutingMessageFilter) (h : msg.message_dst ≠ DstLocation.Direct) :
    filter_outgoing now msg pub_id f =
      ((if (insertOutgoing now msg.full_crypto_hash pub_id (pruneOutgoing now f.outgoing)).1
        then FilteringResult.KnownMessage else FilteringResult.NewMessage),
       { f with outgoing := (insertOutgoing now msg.full_crypto_hash pub_id (pruneOutgoing now f.outgoing)).2 }) := by
  unfold filter_outgoing
  cases hd : msg.message_dst with
  | Direct => exact absurd hd h
  | Node n => rfl
  | Section n => rfl
  | PrefixSection p => rfl

theorem insertIncoming_found (now d : Nat) (l : MessageFilter) (e : IncEntry)
    (hl : lookupIncoming d l = some e) :
    insertIncoming now d l
      = (e.count + 1, ⟨d, e.count + 1, now⟩ :: l.filter (fun x => decide (¬ x.key = d))) := by
  unfold insertIncoming
  rw [hl]

theorem insertIncoming_missing (now d : Nat) (l : MessageFilter)
    (hl : lookupIncoming d l = none) :
    insertIncoming now d l = (1, ⟨d, 1, now⟩ :: l) := by
  unfold insertIncoming
  rw [hl]

theorem insertOutgoing_found (now d : Nat) (p : PublicId) (l : LruCache) (e : OutEntry)
    (hl : lookupOutgoing d p l = some e) :
    insertOutgoing now d p l
      = (true, ⟨d, p, now⟩ :: l.filter (fun x => decide (¬ (x.digest = d ∧ x.peer = p)))) := by
  unfold insertOutgoing
  rw [hl]

theorem insertOutgoing_missing (now d : Nat) (p : PublicId) (l : LruCache)
    (hl : lookupOutgoing d p l = none) :
    insertOutgoing now d p l = (false, ⟨d, p, now⟩ :: l) := by
  unfold insertOutgoing
  rw [hl]

/-- If the first `q`-match of `l` is `e` and `e` survives the filter `p`, it is
still the first `q`-match after filtering. -/
theorem find?_filter_keeps {α : Type} (p q : α → Bool) (l : List α) (e : α)
    (hf : l.find? q = some e) (hp : p e = true) :
    (l.filter p).find? q = some e := by
  induction l with
  | nil => simp at hf
  | cons a l ih =>
    by_cases hq : q a
    · rw [List.find?_cons_of_pos _ hq] at hf
      injection hf with hf
      subst hf
      rw [List.filter_cons, if_pos hp, List.find?_cons_of_pos _ hq]
    · rw [List.find?_cons_of_neg _ (by simpa using hq)] at hf
      rw [List.filter_cons]
      by_cases hpa : p a
      · rw [if_pos hpa, List.find?_cons_of_neg _ (by simpa using hq)]
        exact ih hf
      · rw [if_neg hpa]
        exact ih hf

theorem lookupIncoming_insert_other (now : Nat) (d' d : Digest256) (l : MessageFilter)
    (e : IncEntry) (hne : d' ≠ d) (hl : lookupIncoming d l = some e) :
    lookupIncoming d (insertIncoming now d' l).2 = some e := by
  have hek : e.key = d := by simpa using List.find?_some hl
  unfold insertIncoming
  cases hlk : lookupIncoming d' l with
  | some e2 =>
    rw [lookupIncoming, List.find?_cons_of_neg _ (by simpa using hne)]
    refine find?_filter_keeps _ _ _ _ hl ?_
    simp [hek]
    exact fun h => hne h.symm
  | none =>
    rw [lookupIncoming, List.find?_cons_of_neg _ (by simpa using hne)]
    exact hl

/-! ## Traces of incoming-filter calls (C1) -/

/-- A call to the incoming filter: its time and its message. -/
abbrev IncCall := Nat × MessageWithBytes

/-- Run a sequence of incoming-filter calls, keeping only the final state. -/
def runIncoming (f : RoutingMessageFilter) : List IncCall → RoutingMessageFilter
| [] => f
| c :: rest => runIncoming (filter_incoming c.1 c.2 f).2 rest

/-- The call times are monotonically non-decreasing, starting from `t`. -/
def timesMonoInc : Nat → List IncCall → Bool
| _, [] => true
| t, c :: rest => decide (t ≤ c.1) && timesMonoInc c.1 rest

/-- Invariant carried along a trace: the digest `d` has a live entry in the
incoming cache whose last-insertion time is at least `t0`. -/
def IncInv (d : Digest256) (t0 : Nat) (l : MessageFilter) : Prop :=
  ∃ e : IncEntry, lookupIncoming d l = some e ∧ e.key = d ∧ 1 ≤ e.count ∧ t0 ≤ e.time

theorem pruneIncoming_keeps (now : Nat) (d : Digest256) (t0 : Nat) (l : MessageFilter)
    (e : IncEntry) (hl : lookupIncoming d l = some e) (ht0 : t0 ≤ e.time)
    (hnow : now < t0 + INCOMING_EXPIRY_DURATION_SECS) :
    lookupIncoming d (pruneIncoming now l) = some e := by
  apply find?_filter_keeps _ _ _ _ hl
  have h1 : now - e.time ≤ now - t0 := Nat.sub_le_sub_left ht0 now
  have h2 : now - t0 ≤ INCOMING_EXPIRY_DURATION_SECS := by omega
  simpa using le_trans h1 h2

/-- One incoming-filter call preserves the invariant, provided it happens
within the TTL window that started at `t0`. -/
theorem filter_incoming_preserves_inv (d t0 u : Nat) (m : MessageWithBytes)
    (f : RoutingMessageFilter) (hInv : IncInv d t0 f.incoming) (ht0 : t0 ≤ u)
    (hu : u < t0 + INCOMING_EXPIRY_DURATION_SECS) :
    IncInv d t0 (filter_incoming u m f).2.incoming := by
  obtain ⟨e, hl, hk, hc, ht⟩ := hInv
  by_cases hd : m.message_dst = DstLocation.Direct
  · rw [filter_incoming_direct_eq u m f hd]
    exact ⟨e, hl, hk, hc, ht⟩
  · rw [filter_incoming_not_direct_eq u m f hd]
    have hpr := pruneIncoming_keeps u d t0 f.incoming e hl ht hu
    by_cases he : m.full_crypto_hash = d
    · rw [he]
      rw [insertIncoming_found u d _ e hpr]
      refine ⟨⟨d, e.count + 1, u⟩, ?_, rfl, Nat.le_add_left 1 e.count, ht0⟩
      rw [lookupIncoming, List.find?_cons_of_pos _ (by simp)]
    · refine ⟨e, ?_, hk, hc, ht⟩
      exact lookupIncoming_insert_other u m.full_crypto_hash d _ e he hpr

/-- Running any monotone-in-time sequence of incoming-filter calls, all of
which happen within the TTL window that started at `t0`, preserves the
invariant. -/
theorem runIncoming_preserves_inv (d t0 tB : Nat)
    (hB : tB < t0 + INCOMING_EXPIRY_DURATION_SECS) :
    ∀ (mid : List IncCall) (f : RoutingMessageFilter) (tcur : Nat),
    IncInv d t0 f.incoming → t0 ≤ tcur → timesMonoInc tcur mid = true →
    (∀ c ∈ mid, c.1 ≤ tB) →
    IncInv d t0 (runIncoming f mid).incoming := by
  intro mid
  induction mid with
  | nil => intro f tcur hInv _ _ _; exact hInv
  | cons c rest ih =>
    intro f tcur hInv htcur hmono hle
    simp only [timesMonoInc, Bool.and_eq_true, decide_eq_true_eq] at hmono
    have hc1 : c.1 ≤ tB := hle c (List.mem_cons_self c rest)
    have hstep := filter_incoming_preserves_inv d t0 c.1 c.2 f hInv
      (le_trans htcur hmono.1) (lt_of_le_of_lt hc1 hB)
    exact ih (filter_incoming c.1 c.2 f).2 c.1 hstep (le_trans htcur hmono.1) hmono.2
      (fun x hx => hle x (List.mem_cons_of_mem c hx))

theorem timesMonoInc_mem_le_last : ∀ (l : List IncCall) (t : Nat) (c : IncCall),
    timesMonoInc t (l ++ [c]) = true → ∀ x ∈ l, x.1 ≤ c.1 := by
  intro l
  induction l with
  | nil => intro t c _ x hx; simp at hx
  | cons a l ih =>
    intro t c hmono x hx
    simp only [List.cons_append, timesMonoInc, Bool.and_eq_true, decide_eq_true_eq] at hmono
    rcases List.mem_cons.mp hx with h | h
    · subst h
      have : ∀ (l' : List IncCall) (u : Nat), timesMonoInc u (l' ++ [c]) = true → u ≤ c.1 := by
        intro l'
        induction l' with
        | nil => intro u h; simpa [timesMonoInc] using h
        | cons b l' ih' =>
          intro u h
          simp only [List.cons_append, timesMonoInc, Bool.and_eq_true, decide_eq_true_eq] at h
          exact le_trans h.1 (ih' b.1 h.2)
      exact this l x.1 hmono.2
    · exact ih a.1 c hmono.2 x h

theorem timesMonoInc_append_left : ∀ (l l' : List IncCall) (t : Nat),
    timesMonoInc t (l ++ l') = true → timesMonoInc t l = true := by
  intro l
  induction l with
  | nil => intro l' t _; rfl
  | cons a l ih =>
    intro l' t h
    simp only [List.cons_append, timesMonoInc, Bool.and_eq_true] at h ⊢
    exact ⟨h.1, ih l' a.1 h.2⟩

theorem timesMonoInc_head_le : ∀ (l : List IncCall) (t : Nat) (c : IncCall),
    timesMonoInc t (l ++ [c]) = true → t ≤ c.1 := by
  intro l
  induction l with
  | nil => intro t c h; simpa [timesMonoInc] using h
  | cons a l ih =>
    intro t c h
    simp only [List.cons_append, timesMonoInc, Bool.and_eq_true, decide_eq_true_eq] at h
    exact le_trans h.1 (ih a.1 c h.2)

/-- C1: for a non-direct message, the first call to `filter_incoming` returns
`NewMessage`, and every subsequent call on the same message, made before the
incoming TTL (1200 s) has elapsed since the first, returns `KnownMessage` -
whatever other calls (`mid`, at monotone times) happen in between. -/
theorem incoming_first_new_then_known (f0 : RoutingMessageFilter) (t0 t' : Nat)
    (msg : MessageWithBytes) (mid : List IncCall)
    (hdst : msg.message_dst ≠ DstLocation.Direct)
    (hfresh : lookupIncoming msg.full_crypto_hash (pruneIncoming t0 f0.incoming) = none)
    (hmono : timesMonoInc t0 (mid ++ [(t', msg)]) = true)
    (httl : t' < t0 + INCOMING_EXPIRY_DURATION_SECS) :
    (filter_incoming t0 msg f0).1 = FilteringResult.NewMessage ∧
    (filter_incoming t' msg (runIncoming (filter_incoming t0 msg f0).2 mid)).1
      = FilteringResult.KnownMessage := by
  have h1 : (insertIncoming t0 msg.full_crypto_hash (pruneIncoming t0 f0.incoming)).1 = 1 := by
    rw [insertIncoming_missing _ _ _ hfresh]
  constructor
  · rw [filter_incoming_not_direct_eq _ _ _ hdst]
    simp [h1]
  · have hInv1 : IncInv msg.full_crypto_hash t0 (filter_incoming t0 msg f0).2.incoming := by
      rw [filter_incoming_not_direct_eq _ _ _ hdst, insertIncoming_missing _ _ _ hfresh]
      exact ⟨⟨msg.full_crypto_hash, 1, t0⟩,
        by rw [lookupIncoming, List.find?_cons_of_pos _ (by simp)], rfl, le_refl 1, le_refl t0⟩
    have hmid := timesMonoInc_append_left mid [(t', msg)] t0 hmono
    have hlast : ∀ x ∈ mid, x.1 ≤ t' := fun x hx =>
      timesMonoInc_mem_le_last mid t0 (t', msg) hmono x hx
    have hInv2 := runIncoming_preserves_inv msg.full_crypto_hash t0 t' httl mid
      (filter_incoming t0 msg f0).2 t0 hInv1 (le_refl t0) hmid hlast
    obtain ⟨e, hle, hke, hce, hte⟩ := hInv2
    rw [filter_incoming_not_direct_eq _ _ _ hdst]
    have hpr := pruneIncoming_keeps t' msg.full_crypto_hash t0 _ e hle hte httl
    rw [insertIncoming_found t' _ _ e hpr]
    have hgt : 1 < e.count + 1 := by omega
    simp [hgt]

/-- Witness for C1: a concrete first call at time 0 returns `NewMessage`; after
two unrelated interleaved calls, a repeat call on the same message at time 100
(within the 1200 s TTL) returns `KnownMessage`. -/
theorem incoming_first_new_then_known_witness :
    (MessageWithBytes.mk (DstLocation.Node 1) 42).message_dst ≠ DstLocation.Direct ∧
    (filter_incoming 0 ⟨DstLocation.Node 1, 42⟩ RoutingMessageFilter.new).1
      = FilteringResult.NewMessage ∧
    (filter_incoming 100 ⟨DstLocation.Node 1, 42⟩
        (runIncoming (filter_incoming 0 ⟨DstLocation.Node 1, 42⟩ RoutingMessageFilter.new).2
          [(10, ⟨DstLocation.Section 5, 99⟩), (20, ⟨DstLocation.Direct, 3⟩)])).1
      = FilteringResult.KnownMessage := by
  refine ⟨by decide, ?_⟩
  exact incoming_first_new_then_known RoutingMessageFilter.new 0 100
    ⟨DstLocation.Node 1, 42⟩ [(10, ⟨DstLocation.Section 5, 99⟩), (20, ⟨DstLocation.Direct, 3⟩)]
    (by decide) (by decide) (by decide) (by decide)

/-! ## Traces of outgoing-filter calls (C2) -/

/-- A call to the outgoing filter: its time, its message and the target peer. -/
structure OutCall where
  time : Nat
  msg : MessageWithBytes
  peer : PublicId
deriving DecidableEq, Repr

/-- Whether a call carries the outgoing-filter key `(d, p)`: same digest, same
peer, and a non-direct destination (direct messages never touch the cache). -/
def isKeyCall (d : Digest256) (p : PublicId) (c : OutCall) : Bool :=
  decide (c.msg.full_crypto_hash = d) && decide (c.peer = p)
    && decide (c.msg.message_dst ≠ DstLocation.Direct)

/-- The call times are monotonically non-decreasing, starting from `t`. -/
def timesMonoOut : Nat → List OutCall → Bool
| _, [] => true
| t, c :: rest => decide (t ≤ c.time) && timesMonoOut c.time rest

/-- No more than the outgoing TTL elapses between consecutive calls carrying
the key `(d, p)`; `tLast` is the time of the last key call seen so far. -/
def gapsOk (d : Digest256) (p : PublicId) : Nat → List OutCall → Bool
| _, [] => true
| tLast, c :: rest =>
  if isKeyCall d p c
  then decide (c.time ≤ tLast + OUTGOING_EXPIRY_DURATION_SECS) && gapsOk d p c.time rest
  else gapsOk d p tLast rest

/-- Every call in the trace that carries the key `(d, p)` returns
`KnownMessage` when the trace is run from `f`. -/
def allKeyKnown (d : Digest256) (p : PublicId) (f : RoutingMessageFilter) :
    List OutCall → Prop
| [] => True
| c :: rest =>
  (isKeyCall d p c = true →
    (filter_outgoing c.time c.msg c.peer f).1 = FilteringResult.KnownMessage) ∧
  allKeyKnown d p (filter_outgoing c.time c.msg c.peer f).2 rest

/-- Invariant: the key `(d, p)` has a live cache entry last inserted at `tLast`. -/
def OutInv (d : Digest256) (p : PublicId) (tLast : Nat) (l : LruCache) : Prop :=
  lookupOutgoing d p l = some ⟨d, p, tLast⟩

theorem lookupOutgoing_insert_self (now : Nat) (d : Digest256) (p : PublicId) (l : LruCache) :
    lookupOutgoing d p (insertOutgoing now d p l).2 = some ⟨d, p, now⟩ := by
  unfold insertOutgoing
  cases hlk : lookupOutgoing d p l with
  | some e2 => rw [lookupOutgoing, List.find?_cons_of_pos _ (by simp)]
  | none => rw [lookupOutgoing, List.find?_cons_of_pos _ (by simp)]

theorem lookupOutgoing_insert_other (now : Nat) (d' d : Digest256) (p' p : PublicId)
    (l : LruCache) (e : OutEntry) (hne : ¬(d' = d ∧ p' = p))
    (hl : lookupOutgoing d p l = some e) :
    lookupOutgoing d p (insertOutgoing now d' p' l).2 = some e := by
  have hek : e.digest = d ∧ e.peer = p := by simpa using List.find?_some hl
  unfold insertOutgoing
  cases hlk : lookupOutgoing d' p' l with
  | some e2 =>
    rw [lookupOutgoing, List.find?_cons_of_neg _ (by simpa using hne)]
    refine find?_filter_keeps _ _ _ _ hl ?_
    simp [hek.1, hek.2]
    by_cases hdd : d = d'
    · refine Or.inr fun hp => hne ⟨hdd.symm, hp.symm⟩
    · exact Or.inl hdd
  | none =>
    rw [lookupOutgoing, List.find?_cons_of_neg _ (by simpa using hne)]
    exact hl

theorem pruneOutgoing_keeps (now : Nat) (d : Digest256) (p : PublicId) (tLast : Nat)
    (l : LruCache) (hl : OutInv d p tLast l)
    (hnow : now ≤ tLast + OUTGOING_EXPIRY_DURATION_SECS) :
    lookupOutgoing d p (pruneOutgoing now l) = some ⟨d, p, tLast⟩ := by
  apply find?_filter_keeps _ _ _ _ hl
  simp
  omega

theorem allKeyKnown_of_no_key (d : Digest256) (p : PublicId) :
    ∀ (trace : List OutCall) (f : RoutingMessageFilter),
    (∀ c ∈ trace, isKeyCall d p c = false) → allKeyKnown d p f trace := by
  intro trace
  induction trace with
  | nil => intro f _; trivial
  | cons c rest ih =>
    intro f hnk
    refine ⟨fun hcontra => ?_, ih _ (fun x hx => hnk x (List.mem_cons_of_mem c hx))⟩
    rw [hnk c (List.mem_cons_self c rest)] at hcontra
    exact absurd hcontra (by simp)

/-- Time of the first key call in the trace, if any. -/
def firstKeyTime (d : Digest256) (p : PublicId) : List OutCall → Option Nat
| [] => none
| c :: rest => if isKeyCall d p c then some c.time else firstKeyTime d p rest

theorem gapsOk_firstKeyTime (d : Digest256) (p : PublicId) :
    ∀ (trace : List OutCall) (tLast tk : Nat), gapsOk d p tLast trace = true →
    firstKeyTime d p trace = some tk → tk ≤ tLast + OUTGOING_EXPIRY_DURATION_SECS := by
  intro trace
  induction trace with
  | nil => intro tLast tk _ h; simp [firstKeyTime] at h
  | cons c rest ih =>
    intro tLast tk hg hf
    by_cases hk : isKeyCall d p c = true
    · rw [firstKeyTime, if_pos hk] at hf
      injection hf with hf
      rw [gapsOk, if_pos hk, Bool.and_eq_true, decide_eq_true_eq] at hg
      omega
    · rw [firstKeyTime, if_neg hk] at hf
      rw [gapsOk, if_neg hk] at hg
      exact ih tLast tk hg hf

theorem firstKeyTime_mem (d : Digest256) (p : PublicId) :
    ∀ (trace : List OutCall) (tk : Nat), firstKeyTime d p trace = some tk →
    ∃ c ∈ trace, c.time = tk := by
  intro trace
  induction trace with
  | nil => intro tk h; simp [firstKeyTime] at h
  | cons c rest ih =>
    intro tk hf
    by_cases hk : isKeyCall d p c = true
    · rw [firstKeyTime, if_pos hk] at hf
      injection hf with hf
      exact ⟨c, List.mem_cons_self c rest, hf⟩
    · rw [firstKeyTime, if_neg hk] at hf
      obtain ⟨x, hx, hxt⟩ := ih tk hf
      exact ⟨x, List.mem_cons_of_mem c hx, hxt⟩

theorem firstKeyTime_isSome_of_mem (d : Digest256) (p : PublicId) :
    ∀ (trace : List OutCall) (c : OutCall), c ∈ trace → isKeyCall d p c = true →
    ∃ tk, firstKeyTime d p trace = some tk := by
  intro trace
  induction trace with
  | nil => intro c hc _; simp at hc
  | cons a rest ih =>
    intro c hc hk
    by_cases hka : isKeyCall d p a = true
    · exact ⟨a.time, by rw [firstKeyTime, if_pos hka]⟩
    · rcases List.mem_cons.mp hc with h | h
      · subst h; exact absurd hk hka
      · obtain ⟨tk, htk⟩ := ih c h hk
        exact ⟨tk, by rw [firstKeyTime, if_neg hka]; exact htk⟩

theorem timesMonoOut_mem_ge : ∀ (trace : List OutCall) (t : Nat) (c : OutCall),
    timesMonoOut t trace = true → c ∈ trace → t ≤ c.time := by
  intro trace
  induction trace with
  | nil => intro t c _ hc; simp at hc
  | cons a rest ih =>
    intro t c hmono hc
    simp only [timesMonoOut, Bool.and_eq_true, decide_eq_true_eq] at hmono
    rcases List.mem_cons.mp hc with h | h
    · subst h; exact hmono.1
    · exact le_trans hmono.1 (ih a.time c hmono.2 h)

theorem timesMonoOut_weaken : ∀ (trace : List OutCall) (t t' : Nat), t ≤ t' →
    timesMonoOut t' trace = true → timesMonoOut t trace = true := by
  intro trace
  induction trace with
  | nil => intro t t' _ _; rfl
  | cons a rest ih =>
    intro t t' hle hmono
    simp only [timesMonoOut, Bool.and_eq_true, decide_eq_true_eq] at hmono ⊢
    exact ⟨le_trans hle hmono.1, hmono.2⟩

/-- Core induction for C2: while the key `(d, p)` has a live entry and the
gaps between key calls stay within the outgoing TTL, every key call in the
trace returns `KnownMessage`. -/
theorem outgoing_run_all_known (d : Digest256) (p : PublicId) :
    ∀ (trace : List OutCall) (f : RoutingMessageFilter) (tLast : Nat),
    OutInv d p tLast f.outgoing → timesMonoOut tLast trace = true →
    gapsOk d p tLast trace = true → allKeyKnown d p f trace := by
  intro trace
  induction trace with
  | nil => intro f tLast _ _ _; trivial
  | cons c rest ih =>
    intro f tLast hInv hmono hgaps
    simp only [timesMonoOut, Bool.and_eq_true, decide_eq_true_eq] at hmono
    simp only [allKeyKnown]
    by_cases hkb : isKeyCall d p c = true
    · have hk := hkb
      simp only [isKeyCall, Bool.and_eq_true, decide_eq_true_eq] at hk
      obtain ⟨⟨hhash, hpeer⟩, hdir⟩ := hk
      rw [gapsOk, if_pos hkb, Bool.and_eq_true, decide_eq_true_eq] at hgaps
      obtain ⟨hbound, hgaps'⟩ := hgaps
      have hpr := pruneOutgoing_keeps c.time d p tLast f.outgoing hInv hbound
      constructor
      · intro _
        rw [filter_outgoing_not_direct_eq c.time c.msg c.peer f hdir, hhash, hpeer]
        rw [insertOutgoing_found c.time d p _ ⟨d, p, tLast⟩ hpr]
        rfl
      · have hInv' : OutInv d p c.time (filter_outgoing c.time c.msg c.peer f).2.outgoing := by
          rw [filter_outgoing_not_direct_eq c.time c.msg c.peer f hdir, hhash, hpeer]
          exact lookupOutgoing_insert_self c.time d p _
        exact ih (filter_outgoing c.time c.msg c.peer f).2 c.time hInv' hmono.2 hgaps'
    · rw [gapsOk, if_neg hkb] at hgaps
      refine ⟨fun hcontra => absurd hcontra hkb, ?_⟩
      by_cases hnk : ∀ x ∈ rest, isKeyCall d p x = false
      · exact allKeyKnown_of_no_key d p rest _ hnk
      · push_neg at hnk
        obtain ⟨c', hc', hk'⟩ := hnk
        have hk'' : isKeyCall d p c' = true := by
          cases h : isKeyCall d p c' with
          | true => rfl
          | false => exact absurd h hk'
        obtain ⟨tk, htk⟩ := firstKeyTime_isSome_of_mem d p rest c' hc' hk''
        have htkb := gapsOk_firstKeyTime d p rest tLast tk hgaps htk
        obtain ⟨x, hx, hxt⟩ := firstKeyTime_mem d p rest tk htk
        have hc_tk : c.time ≤ tk := hxt ▸ timesMonoOut_mem_ge rest c.time x hmono.2 hx
        have hcb : c.time ≤ tLast + OUTGOING_EXPIRY_DURATION_SECS := le_trans hc_tk htkb
        have hInv' : OutInv d p tLast (filter_outgoing c.time c.msg c.peer f).2.outgoing := by
          by_cases hdir : c.msg.message_dst = DstLocation.Direct
          · rw [filter_outgoing_direct_eq _ _ _ _ hdir]
            exact hInv
          · rw [filter_outgoing_not_direct_eq _ _ _ _ hdir]
            have hpr := pruneOutgoing_keeps c.time d p tLast f.outgoing hInv hcb
            refine lookupOutgoing_insert_other c.time c.msg.full_crypto_hash d c.peer p _
              ⟨d, p, tLast⟩ ?_ hpr
            rintro ⟨h1, h2⟩
            apply hkb
            simp [isKeyCall, h1, h2, hdir]
        exact ih (filter_outgoing c.time c.msg c.peer f).2 tLast hInv'
          (timesMonoOut_weaken rest tLast c.time hmono.1 hmono.2) hgaps

/-- C2: once `filter_outgoing` has been called with key `(d, p)` (digest `d`
of a non-direct message, peer `p`), every later call with the same key returns
`KnownMessage`, as long as no more than the outgoing TTL (600 s) elapses
between consecutive key calls - so `NewMessage` is never returned twice for
`(d, p)` within the TTL, whatever other calls are interleaved. -/
theorem outgoing_never_new_twice (f0 : RoutingMessageFilter) (t0 : Nat)
    (msg0 : MessageWithBytes) (p : PublicId) (trace : List OutCall)
    (hdst : msg0.message_dst ≠ DstLocation.Direct)
    (hmono : timesMonoOut t0 trace = true)
    (hgaps : gapsOk msg0.full_crypto_hash p t0 trace = true) :
    allKeyKnown msg0.full_crypto_hash p (filter_outgoing t0 msg0 p f0).2 trace := by
  refine outgoing_run_all_known msg0.full_crypto_hash p trace _ t0 ?_ hmono hgaps
  show OutInv msg0.full_crypto_hash p t0 (filter_outgoing t0 msg0 p f0).2.outgoing
  rw [filter_outgoing_not_direct_eq _ _ _ _ hdst]
  exact lookupOutgoing_insert_self t0 msg0.full_crypto_hash p _

/-- Witness for C2: after a first key call at time 0, repeat calls with the
same `(digest, peer)` at times 300 and 600 (gaps of at most 600 s, with an
unrelated call interleaved) both return `KnownMessage`. -/
theorem outgoing_never_new_twice_witness :
    (MessageWithBytes.mk (DstLocation.Node 1) 42).message_dst ≠ DstLocation.Direct ∧
    timesMonoOut 0 [⟨300, ⟨DstLocation.Node 2, 42⟩, ⟨7⟩⟩, ⟨400, ⟨DstLocation.Section 8, 5⟩, ⟨9⟩⟩,
      ⟨600, ⟨DstLocation.Section 3, 42⟩, ⟨7⟩⟩] = true ∧
    allKeyKnown 42 ⟨7⟩
      (filter_outgoing 0 ⟨DstLocation.Node 1, 42⟩ ⟨7⟩ RoutingMessageFilter.new).2
      [⟨300, ⟨DstLocation.Node 2, 42⟩, ⟨7⟩⟩, ⟨400, ⟨DstLocation.Section 8, 5⟩, ⟨9⟩⟩,
       ⟨600, ⟨DstLocation.Section 3, 42⟩, ⟨7⟩⟩] := by
  refine ⟨by decide, by decide, ?_⟩
  exact outgoing_never_new_twice RoutingMessageFilter.new 0 ⟨DstLocation.Node 1, 42⟩ ⟨7⟩
    [⟨300, ⟨DstLocation.Node 2, 42⟩, ⟨7⟩⟩, ⟨400, ⟨DstLocation.Section 8, 5⟩, ⟨9⟩⟩,
     ⟨600, ⟨DstLocation.Section 3, 42⟩, ⟨7⟩⟩]
    (by decide) (by decide) (by decide)

/-! ## Bootstrapping peer (`src/states/bootstrapping_peer.rs`) -/

/-- `BOOTSTRAP_TIMEOUT` in seconds. -/
def BOOTSTRAP_TIMEOUT : Nat := 20

/-- Random-number generator state, modelled as a seed. -/
abbrev MainRng := Nat

/-- Modelled from the spec: `FullId::within_range` draws a `FullId` whose
derived name lies in the given inclusive range; the unbounded
draw-until-match loop is modelled by mapping the seed into the range. -/
def FullId.within_range (rng : MainRng) (range : XorName × XorName) : FullId :=
  { public_id := { name := range.1 + rng % (range.2 - range.1 + 1) }, secret_seed := rng }

/-- Modelled from the spec: the signed relocation details; the state only
reads the destination name. -/
structure SignedRelocateDetails where
  destination : XorName
deriving DecidableEq, Repr

/-- Modelled from the spec: `RelocatePayload::new` binds the relocation
details and the new public id, signed with the old full id. -/
structure RelocatePayload where
  details : SignedRelocateDetails
  new_pub_id : PublicId
  old_full_id : FullId
deriving DecidableEq, Repr

/-- A dialable peer address (`ConnectionInfo`); equality by address. -/
structure ConnectionInfo where
  peer_addr : SocketAddr
deriving DecidableEq, Repr

/-- `(PublicId, ConnectionInfo)` pair. -/
structure P2pNode where
  pub_id : PublicId
  conn_info : ConnectionInfo
deriving DecidableEq, Repr

def P2pNode.peer_addr (n : P2pNode) : SocketAddr := n.conn_info.peer_addr

/-- Versioned record of a section: prefix, version and elder set. -/
structure EldersInfo where
  pfx : Pfx
  version : Nat
  elders : List P2pNode
deriving DecidableEq, Repr

/-- `BootstrapResponse` payloads. -/
inductive BootstrapResponse where
| Join (info : EldersInfo)
| Rebootstrap (new_conn_infos : List ConnectionInfo)
deriving DecidableEq, Repr

/-- Message variants; payloads irrelevant to the bootstrapping state are
omitted. -/
inductive Variant where
| NeighbourInfo
| UserMessage (content : List Nat)
| NodeApproval
| AckMessage
| GenesisUpdate
| Relocate
| MessageSignature
| BootstrapRequest (destination : XorName)
| BootstrapResponse (response : BootstrapResponse)
| JoinRequest
| ConnectionResponse
| MemberKnowledge
| ParsecRequest
| ParsecResponse
deriving DecidableEq, Repr

/-- State-machine transitions visible to the claims. -/
inductive Transition where
| Stay
| IntoJoining (info : EldersInfo) (relocate_payload : Option RelocatePayload)
| Terminate
deriving DecidableEq, Repr

/-- Externally visible side effects of a handler. -/
inductive Effect where
| SendDirect (addr : SocketAddr) (variant : Variant)
| Disconnect (addr : SocketAddr)
| TransportBootstrap
| DisconnectAll
deriving DecidableEq, Repr

/-- Timer: `schedule` hands out unique tokens in increasing order. -/
structure Timer where
  next_token : Nat
deriving DecidableEq, Repr

def Timer.schedule (t : Timer) (_duration : Nat) : Nat × Timer :=
  (t.next_token, ⟨t.next_token + 1⟩)

/-- The `BootstrappingPeer` state: pending bootstrap requests by address,
timeout tokens mapping to addresses, identity, timer, rng, optional
relocation details, and the set of connected peers (the peer map). -/
structure BootstrappingPeer where
  pending_requests : List SocketAddr
  timeout_tokens : List (Nat × SocketAddr)
  full_id : FullId
  timer : Timer
  rng : MainRng
  relocate_details : Option SignedRelocateDetails
  peer_map : List SocketAddr
deriving DecidableEq, Repr

def BootstrappingPeer.name (s : BootstrappingPeer) : XorName :=
  s.full_id.public_id.name

/-- `HashMap::insert` with replace-on-collision semantics. -/
def mapInsert (k : Nat) (v : SocketAddr) (l : List (Nat × SocketAddr)) :
    List (Nat × SocketAddr) :=
  (k, v) :: l.filter (fun e => decide (¬ e.1 = k))

/-- `HashMap::remove`: the removed value (if any) and the remaining map. -/
def mapRemove (k : Nat) (l : List (Nat × SocketAddr)) :
    Option SocketAddr × List (Nat × SocketAddr) :=
  (List.lookup k l, l.filter (fun e => decide (¬ e.1 = k)))

/-- `PeerMap::connect`: idempotent add. -/
def pmConnect (a : SocketAddr) (l : List SocketAddr) : List SocketAddr :=
  if a ∈ l then l else a :: l

/-- `BootstrappingPeer::new`: fresh state; the transport's `bootstrap()` is
invoked immediately. -/
def BootstrappingPeer.mkNew (full_id : FullId) (rng : MainRng) :
    BootstrappingPeer × List Effect :=
  ({ pending_requests := [], timeout_tokens := [], full_id := full_id,
     timer := ⟨0⟩, rng := rng, relocate_details := none, peer_map := [] },
   [Effect.TransportBootstrap])

/-- `get_destination`: the relocation destination when relocating, the node's
own name otherwise. -/
def get_destination (s : BootstrappingPeer) : XorName :=
  match s.relocate_details with
  | some details => details.destination
  | none => s.name

/-- `send_bootstrap_request`: a no-op when the address is already pending;
otherwise record it, schedule a timeout, send `BootstrapRequest` and connect. -/
def send_bootstrap_request (dst : ConnectionInfo) (s : BootstrappingPeer) :
    BootstrappingPeer × List Effect :=
  if dst.peer_addr ∈ s.pending_requests then (s, [])
  else
    let s1 := { s with pending_requests := dst.peer_addr :: s.pending_requests }
    let res := s1.timer.schedule BOOTSTRAP_TIMEOUT
    let s2 := { s1 with timer := res.2,
                        timeout_tokens := mapInsert res.1 dst.peer_addr s1.timeout_tokens }
    let destination := get_destination s2
    ({ s2 with peer_map := pmConnect dst.peer_addr s2.peer_map },
     [Effect.SendDirect dst.peer_addr (Variant.BootstrapRequest destination)])

/-- `join_section`: pick the prefix of length `info.prefix.bit_count + 3`
taken from the destination; regenerate the `FullId` within its inclusive
range when the current name does not match; build the relocate payload when
relocating; transition into Joining. -/
def join_section (info : EldersInfo) (s : BootstrappingPeer) :
    Transition × BootstrappingPeer :=
  let old_full_id := s.full_id
  let destination := get_destination s
  let name_pfx := Pfx.new (info.pfx.bit_count + 3) destination
  let s1 := if name_pfx.matches s.name then s
            else { s with full_id := FullId.within_range s.rng name_pfx.rangeInclusive,
                          rng := s.rng + 1 }
  match s1.relocate_details with
  | some details =>
    (Transition.IntoJoining info (some ⟨details, s1.full_id.public_id, old_full_id⟩),
     { s1 with relocate_details := none })
  | none => (Transition.IntoJoining info none, s1)

/-- Modelled from the spec: `Base::disconnect` (in `common.rs`, not under
`src/`): drop the peer from the peer map and tell the transport. -/
def disconnectPeer (addr : SocketAddr) (s : BootstrappingPeer) :
    BootstrappingPeer × List Effect :=
  ({ s with peer_map := s.peer_map.erase addr }, [Effect.Disconnect addr])

/-- `request_failed`: re-invoke the transport bootstrap when no pending
requests remain. -/
def request_failed_effects (s : BootstrappingPeer) : List Effect :=
  if s.pending_requests.isEmpty then [Effect.TransportBootstrap] else []

/-- `reconnect_to_new_section`: disconnect everything, clear pending requests
and timeout tokens, then dial the new contacts. -/
def reconnect_to_new_section (new_conn_infos : List ConnectionInfo)
    (s : BootstrappingPeer) : BootstrappingPeer × List Effect :=
  let s0 := { s with peer_map := [], pending_requests := [], timeout_tokens := [] }
  new_conn_infos.foldl
    (fun acc ci =>
      let res := send_bootstrap_request ci acc.1
      (res.1, acc.2 ++ res.2))
    (s0, [Effect.DisconnectAll])

/-- `handle_message` after sender resolution: disconnect unexpected peers;
dispatch `BootstrapResponse`; any other variant hits `unreachable!()`,
modelled as `none`. -/
def handle_message (s : BootstrappingPeer) (p2p_node : P2pNode) (variant : Variant) :
    Option (Transition × BootstrappingPeer × List Effect) :=
  if p2p_node.peer_addr ∈ s.pending_requests then
    match variant with
    | Variant.BootstrapResponse (BootstrapResponse.Join info) =>
      let res := join_section info s
      some (res.1, res.2, [])
    | Variant.BootstrapResponse (BootstrapResponse.Rebootstrap new_conn_infos) =>
      let res := reconnect_to_new_section new_conn_infos s
      some (Transition.Stay, res.1, res.2)
    | _ => none
  else
    let res := disconnectPeer p2p_node.peer_addr s
    some (Transition.Stay, res.1, res.2)

/-- `handle_timeout`: drop the token; if its address was still pending, drop
and disconnect it and re-bootstrap when nothing is pending any more. -/
def handle_timeout (token : Nat) (s : BootstrappingPeer) :
    Transition × BootstrappingPeer × List Effect :=
  match List.lookup token s.timeout_tokens with
  | some peer_addr =>
    let s1 := { s with timeout_tokens := (mapRemove token s.timeout_tokens).2 }
    if peer_addr ∈ s1.pending_requests then
      let s2 := { s1 with pending_requests := s1.pending_requests.erase peer_addr }
      let res := disconnectPeer peer_addr s2
      (Transition.Stay, res.1, res.2 ++ request_failed_effects res.1)
    else
      (Transition.Stay, s1, [])
  | none => (Transition.Stay, s, [])

/-- `handle_bootstrapped_to`: send a bootstrap request to the new contact. -/
def handle_bootstrapped_to (conn_info : ConnectionInfo) (s : BootstrappingPeer) :
    Transition × BootstrappingPeer × List Effect :=
  let res := send_bootstrap_request conn_info s
  (Transition.Stay, res.1, res.2)

/-- `handle_connection_failure`: forget the pending request and the peer-map
entry; re-bootstrap when nothing is pending any more. -/
def handle_connection_failure (peer_addr : SocketAddr) (s : BootstrappingPeer) :
    Transition × BootstrappingPeer × List Effect :=
  let s1 := { s with pending_requests := s.pending_requests.erase peer_addr,
                     peer_map := s.peer_map.erase peer_addr }
  (Transition.Stay, s1, request_failed_effects s1)

/-- Source location of a message. -/
inductive SrcLocation where
| Node (name : XorName)
| Section (p : Pfx)
deriving DecidableEq, Repr

/-- Routing errors; the bootstrapping handlers never produce one. -/
inductive RoutingError where
| InvalidState
deriving DecidableEq, Repr

/-- `handle_send_message` in the Bootstrapping state: logs a warning and
returns `Ok(())` (the pre-refactor behaviour), sending nothing. -/
def handle_send_message (_src : SrcLocation) (_dst : DstLocation) (_content : List Nat)
    (s : BootstrappingPeer) :
    Except RoutingError Unit × BootstrappingPeer × List Effect :=
  (Except.ok (), s, [])

/-- `should_handle_message`: only `BootstrapResponse` is accepted. -/
def should_handle_message (variant : Variant) : Bool :=
  match variant with
  | Variant.BootstrapResponse _ => true
  | Variant.NeighbourInfo | Variant.UserMessage _ | Variant.NodeApproval
  | Variant.AckMessage | Variant.GenesisUpdate | Variant.Relocate
  | Variant.MessageSignature | Variant.BootstrapRequest _ | Variant.JoinRequest
  | Variant.ConnectionResponse | Variant.MemberKnowledge | Variant.ParsecRequest
  | Variant.ParsecResponse => false

/-! ## Theorems about the bootstrapping peer (C5-C8, C10) -/

/-- C5: a message from a peer that has no pending `BootstrapRequest` gets the
peer disconnected, yields `Stay`, and leaves every other part of the state
(pending requests, timeout tokens, full id, timer, rng, relocation details)
unchanged; no join and no rebootstrap happens. -/
theorem unexpected_peer_only_disconnected (s : BootstrappingPeer) (p2p_node : P2pNode)
    (variant : Variant) (h : p2p_node.peer_addr ∉ s.pending_requests) :
    handle_message s p2p_node variant
      = some (Transition.Stay,
              { s with peer_map := s.peer_map.erase p2p_node.peer_addr },
              [Effect.Disconnect p2p_node.peer_addr]) := by
  unfold handle_message
  rw [if_neg h]
  rfl

/-- A concrete bootstrapping state used in witnesses: one pending request to
address 5 with timeout token 0, connected to peers 5 and 6. -/
def wStateA : BootstrappingPeer :=
  { pending_requests := [5]
    timeout_tokens := [(0, 5)]
    full_id := ⟨⟨3⟩, 0⟩
    timer := ⟨1⟩
    rng := 0
    relocate_details := none
    peer_map := [5, 6] }

/-- Witness for C5 at a concrete state and peer. -/
theorem unexpected_peer_only_disconnected_witness :
    (6 : SocketAddr) ∉ wStateA.pending_requests ∧
    handle_message wStateA ⟨⟨9⟩, ⟨6⟩⟩ Variant.NodeApproval
      = some (Transition.Stay, { wStateA with peer_map := [5] }, [Effect.Disconnect 6]) := by
  refine ⟨by decide, ?_⟩
  have h := unexpected_peer_only_disconnected wStateA ⟨⟨9⟩, ⟨6⟩⟩ Variant.NodeApproval (by decide)
  rw [h]
  decide

/-- C6: `handle_timeout` always returns `Stay`; when the token maps to an
address that is still pending, the address leaves both tables, is
disconnected, and the transport bootstrap is re-invoked exactly when no
pending request remains; an unknown token changes nothing. -/
theorem timeout_token_handling (s : BootstrappingPeer) (token : Nat) :
    (handle_timeout token s).1 = Transition.Stay ∧
    (∀ addr, List.lookup token s.timeout_tokens = some addr →
      addr ∈ s.pending_requests →
      (handle_timeout token s).2.1
        = { s with pending_requests := s.pending_requests.erase addr,
                   timeout_tokens := (mapRemove token s.timeout_tokens).2,
                   peer_map := s.peer_map.erase addr } ∧
      (Effect.Disconnect addr) ∈ (handle_timeout token s).2.2 ∧
      ((Effect.TransportBootstrap ∈ (handle_timeout token s).2.2)
        ↔ s.pending_requests.erase addr = [])) ∧
    (List.lookup token s.timeout_tokens = none →
      (handle_timeout token s).2.1 = s ∧ (handle_timeout token s).2.2 = []) := by
  unfold handle_timeout
  cases hlk : List.lookup token s.timeout_tokens with
  | some peer_addr =>
    dsimp only
    refine ⟨?_, ?_, ?_⟩
    · by_cases hmem : peer_addr ∈ s.pending_requests
      · rw [if_pos hmem]
      · rw [if_neg hmem]
    · intro addr haddr hmem
      injection haddr with haddr
      subst haddr
      rw [if_pos hmem]
      refine ⟨rfl, ?_, ?_⟩
      · exact List.mem_append_left _ (List.mem_singleton.mpr rfl)
      · unfold disconnectPeer request_failed_effects
        dsimp only
        by_cases hemp : (s.pending_requests.erase peer_addr).isEmpty
        · rw [if_pos hemp]
          constructor
          · intro _
            exact List.isEmpty_iff.mp hemp
          · intro _
            exact List.mem_append_right _ (List.mem_singleton.mpr rfl)
        · rw [if_neg hemp]
          constructor
          · intro hin
            simp at hin
          · intro heq
            exact absurd (List.isEmpty_iff.mpr heq) hemp
    · intro hnone
      exact absurd hnone (by simp)
  | none =>
    exact ⟨rfl, fun addr haddr _ => absurd haddr (by simp), fun _ => ⟨rfl, rfl⟩⟩

/-- Like `wStateA` but connected only to peer 5. -/
def wStateB : BootstrappingPeer :=
  { pending_requests := [5]
    timeout_tokens := [(0, 5)]
    full_id := ⟨⟨3⟩, 0⟩
    timer := ⟨1⟩
    rng := 0
    relocate_details := none
    peer_map := [5] }

/-- Witness for C6: token 0 maps to the pending address 5, which is removed
from both tables and disconnected; the pending set becomes empty, so the
transport bootstrap is re-invoked. -/
theorem timeout_token_handling_witness :
    List.lookup 0 wStateB.timeout_tokens = some 5 ∧
    (5 : SocketAddr) ∈ wStateB.pending_requests ∧
    (handle_timeout 0 wStateB).1 = Transition.Stay ∧
    (handle_timeout 0 wStateB).2.1
      = { wStateB with
          pending_requests := []
          timeout_tokens := []
          peer_map := [] } ∧
    Effect.TransportBootstrap ∈ (handle_timeout 0 wStateB).2.2 := by
  obtain ⟨h1, h2, _⟩ := timeout_token_handling wStateB 0
  obtain ⟨hs, _, hboot⟩ := h2 5 (by decide) (by decide)
  refine ⟨by decide, by decide, h1, ?_, hboot.mpr (by decide)⟩
  rw [hs]
  decide

/-- C7: any message variant that passes `should_handle_message` is a
`BootstrapResponse`, so `handle_message` never reaches its `unreachable!()`
branch (modelled as `none`). -/
theorem accepted_message_never_panics (s : BootstrappingPeer) (p2p_node : P2pNode)
    (variant : Variant) (h : should_handle_message variant = true) :
    (handle_message s p2p_node variant).isSome = true := by
  unfold handle_message
  by_cases hp : p2p_node.peer_addr ∈ s.pending_requests
  · rw [if_pos hp]
    cases variant with
    | BootstrapResponse response => cases response <;> rfl
    | NeighbourInfo => exact absurd h (by simp [should_handle_message])
    | UserMessage content => exact absurd h (by simp [should_handle_message])
    | NodeApproval => exact absurd h (by simp [should_handle_message])
    | AckMessage => exact absurd h (by simp [should_handle_message])
    | GenesisUpdate => exact absurd h (by simp [should_handle_message])
    | Relocate => exact absurd h (by simp [should_handle_message])
    | MessageSignature => exact absurd h (by simp [should_handle_message])
    | BootstrapRequest destination => exact absurd h (by simp [should_handle_message])
    | JoinRequest => exact absurd h (by simp [should_handle_message])
    | ConnectionResponse => exact absurd h (by simp [should_handle_message])
    | MemberKnowledge => exact absurd h (by simp [should_handle_message])
    | ParsecRequest => exact absurd h (by simp [should_handle_message])
    | ParsecResponse => exact absurd h (by simp [should_handle_message])
  · rw [if_neg hp]
    rfl

/-- Witness for C7 at a concrete accepted message. -/
theorem accepted_message_never_panics_witness :
    should_handle_message (Variant.BootstrapResponse (BootstrapResponse.Rebootstrap [])) = true ∧
    (handle_message wStateB ⟨⟨9⟩, ⟨5⟩⟩
      (Variant.BootstrapResponse (BootstrapResponse.Rebootstrap []))).isSome = true :=
  ⟨by decide,
   accepted_message_never_panics wStateB ⟨⟨9⟩, ⟨5⟩⟩
     (Variant.BootstrapResponse (BootstrapResponse.Rebootstrap [])) (by decide)⟩

/-- C8: in the Bootstrapping state, `handle_send_message` always returns
`Ok(())`, sends nothing and leaves the state unchanged, for every source,
destination and content; the function takes no configuration flag that could
alter this. -/
theorem send_message_silently_succeeds (src : SrcLocation) (dst : DstLocation)
    (content : List Nat) (s : BootstrappingPeer) :
    handle_send_message src dst content s = (Except.ok (), s, []) := rfl

/-! ## C10: idempotence of `send_bootstrap_request`, and its limits -/

/-- Trace for the counterexample: a fresh node bootstraps to address 5, loses
the connection, and bootstraps to address 5 again. -/
def cexS0 : BootstrappingPeer := (BootstrappingPeer.mkNew ⟨⟨0⟩, 0⟩ 0).1

def cexS1 : BootstrappingPeer := (handle_bootstrapped_to ⟨5⟩ cexS0).2.1

def cexS2 : BootstrappingPeer := (handle_connection_failure 5 cexS1).2.1

def cexS3 : BootstrappingPeer := (handle_bootstrapped_to ⟨5⟩ cexS2).2.1

/-- Counterexample to the claim that at most one live timeout token exists
per contact address: after bootstrap-to-5, connection-failure-5 (which drops
the pending entry but not its token), and bootstrap-to-5 again, two distinct
tokens (0 and 1) both map to address 5. -/
theorem two_live_tokens_for_same_address :
    cexS3.timeout_tokens = [(1, 5), (0, 5)] ∧
    (0, 5) ∈ cexS3.timeout_tokens ∧ (1, 5) ∈ cexS3.timeout_tokens ∧ (0 : Nat) ≠ 1 := by
  decide

/-- C10 (amended): `send_bootstrap_request` is idempotent per address - when
the destination address is already pending the call changes nothing and emits
nothing - and it keeps the pending set duplicate-free, so there is at most
one pending request per contact address. -/
theorem send_bootstrap_request_idempotent (s : BootstrappingPeer) (dst : ConnectionInfo) :
    (dst.peer_addr ∈ s.pending_requests → send_bootstrap_request dst s = (s, [])) ∧
    (s.pending_requests.Nodup → (send_bootstrap_request dst s).1.pending_requests.Nodup) := by
  constructor
  · intro h
    unfold send_bootstrap_request
    rw [if_pos h]
  · intro h
    unfold send_bootstrap_request
    by_cases hm : dst.peer_addr ∈ s.pending_requests
    · rw [if_pos hm]
      exact h
    · rw [if_neg hm]
      exact List.nodup_cons.mpr ⟨hm, h⟩

/-- Witness for C10 (amended) at a concrete state already pending on 5. -/
theorem send_bootstrap_request_idempotent_witness :
    (5 : SocketAddr) ∈ wStateB.pending_requests ∧
    send_bootstrap_request ⟨5⟩ wStateB = (wStateB, []) ∧
    (send_bootstrap_request ⟨5⟩ wStateB).1.pending_requests.Nodup := by
  have h := send_bootstrap_request_idempotent wStateB ⟨5⟩
  exact ⟨by decide, h.1 (by decide), h.2 (by decide)⟩

/-! ## C4: `join_section` and the extended name range -/

theorem Pfx.chunk_pos (p : Pfx) : 0 < p.chunk := by
  unfold Pfx.chunk
  positivity

theorem Pfx.range_lo_le_hi (p : Pfx) : p.rangeInclusive.1 ≤ p.rangeInclusive.2 :=
  Nat.le_add_right _ _

/-- A name inside a prefix's inclusive range matches the prefix. -/
theorem Pfx.matches_of_mem_range (p : Pfx) (n : XorName)
    (h1 : p.rangeInclusive.1 ≤ n) (h2 : n ≤ p.rangeInclusive.2) :
    p.matches n = true := by
  have hD := p.chunk_pos
  unfold Pfx.rangeInclusive Pfx.lowerBound at h1 h2
  unfold Pfx.matches
  rw [decide_eq_true_eq]
  have hstep : p.chunk - 1 < p.chunk := Nat.sub_lt hD Nat.one_pos
  have hhi : n < (p.value / p.chunk + 1) * p.chunk := by
    rw [Nat.succ_mul]
    exact lt_of_le_of_lt h2 (Nat.add_lt_add_left hstep _)
  exact Nat.div_eq_of_lt_le h1 hhi

/-- The name drawn by `within_range` lies in the requested inclusive range. -/
theorem within_range_name_mem (rng : Nat) (range : Nat × Nat)
    (h : range.1 ≤ range.2) :
    range.1 ≤ (FullId.within_range rng range).public_id.name ∧
    (FullId.within_range rng range).public_id.name ≤ range.2 := by
  obtain ⟨lo, hi⟩ := range
  have h' : lo ≤ hi := h
  have hm : rng % (hi - lo + 1) < hi - lo + 1 := Nat.mod_lt _ (Nat.succ_pos _)
  show lo ≤ lo + rng % (hi - lo + 1) ∧ lo + rng % (hi - lo + 1) ≤ hi
  generalize rng % (hi - lo + 1) = r at hm ⊢
  omega

theorem join_section_matched (info : EldersInfo) (s : BootstrappingPeer)
    (hm : (Pfx.new (info.pfx.bit_count + 3) (get_destination s)).matches s.name = true) :
    (join_section info s).2.full_id = s.full_id := by
  unfold join_section
  simp only [hm, if_true]
  cases hr : s.relocate_details with
  | some details => simp [hr]
  | none => simp [hr]

theorem join_section_unmatched (info : EldersInfo) (s : BootstrappingPeer)
    (hm : (Pfx.new (info.pfx.bit_count + 3) (get_destination s)).matches s.name = false) :
    (join_section info s).2.full_id
      = FullId.within_range s.rng
          (Pfx.new (info.pfx.bit_count + 3) (get_destination s)).rangeInclusive := by
  unfold join_section
  simp only [hm, Bool.false_eq_true, if_false]
  cases hr : s.relocate_details with
  | some details => simp [hr]
  | none => simp [hr]

/-- C4: after `join_section info`, the node's name matches the prefix of
length `info.prefix.bit_count() + 3` taken from the destination name (the
relocation destination when relocating, the node's own name otherwise); the
`FullId` is regenerated - drawn within that extended prefix's inclusive
range - exactly when the prior name did not already match it, and is left
unchanged otherwise. -/
theorem join_section_extended_range (s : BootstrappingPeer) (info : EldersInfo) :
    (Pfx.new (info.pfx.bit_count + 3) (get_destination s)).matches
      (join_section info s).2.name = true ∧
    ((Pfx.new (info.pfx.bit_count + 3) (get_destination s)).matches s.name = true →
      (join_section info s).2.full_id = s.full_id) ∧
    ((Pfx.new (info.pfx.bit_count + 3) (get_destination s)).matches s.name = false →
      (join_section info s).2.full_id
        = FullId.within_range s.rng
            (Pfx.new (info.pfx.bit_count + 3) (get_destination s)).rangeInclusive ∧
      (Pfx.new (info.pfx.bit_count + 3) (get_destination s)).rangeInclusive.1
        ≤ (join_section info s).2.name ∧
      (join_section info s).2.name
        ≤ (Pfx.new (info.pfx.bit_count + 3) (get_destination s)).rangeInclusive.2) := by
  cases hb : (Pfx.new (info.pfx.bit_count + 3) (get_destination s)).matches s.name with
  | true =>
    have hfull := join_section_matched info s hb
    have hname : (join_section info s).2.name = s.name := by
      show (join_section info s).2.full_id.public_id.name = s.full_id.public_id.name
      rw [hfull]
    refine ⟨?_, fun _ => hfull, fun hfalse => absurd hfalse (by simp)⟩
    rw [hname]
    exact hb
  | false =>
    have hfull := join_section_unmatched info s hb
    have hmem := within_range_name_mem s.rng
      (Pfx.new (info.pfx.bit_count + 3) (get_destination s)).rangeInclusive
      (Pfx.range_lo_le_hi _)
    have hname : (join_section info s).2.name
        = (FullId.within_range s.rng
            (Pfx.new (info.pfx.bit_count + 3) (get_destination s)).rangeInclusive).public_id.name := by
      show (join_section info s).2.full_id.public_id.name = _
      rw [hfull]
    refine ⟨?_, fun htrue => absurd htrue (by simp), fun _ => ?_⟩
    · apply Pfx.matches_of_mem_range
      · rw [hname]; exact hmem.1
      · rw [hname]; exact hmem.2
    · exact ⟨hfull, by rw [hname]; exact hmem.1, by rw [hname]; exact hmem.2⟩

/-- A relocating bootstrapping state: name 3, relocation destination in the
upper half of the address space. -/
def wStateC : BootstrappingPeer :=
  { pending_requests := []
    timeout_tokens := []
    full_id := ⟨⟨3⟩, 0⟩
    timer := ⟨0⟩
    rng := 0
    relocate_details := some ⟨2 ^ 255⟩
    peer_map := [] }

/-- A section with a one-bit prefix, used in the C4 witness. -/
def wInfo : EldersInfo := ⟨Pfx.new 1 0, 0, []⟩

/-- Witness for C4: the prior name 3 does not match the 4-bit prefix taken
from the relocation destination, so the `FullId` is regenerated within that
range and the new name matches. -/
theorem join_section_extended_range_witness :
    (Pfx.new (wInfo.pfx.bit_count + 3) (get_destination wStateC)).matches wStateC.name
      = false ∧
    (Pfx.new (wInfo.pfx.bit_count + 3) (get_destination wStateC)).matches
      (join_section wInfo wStateC).2.name = true ∧
    (join_section wInfo wStateC).2.full_id
      = FullId.within_range wStateC.rng
          (Pfx.new (wInfo.pfx.bit_count + 3) (get_destination wStateC)).rangeInclusive := by
  have h := join_section_extended_range wStateC wInfo
  exact ⟨by decide, h.1, (h.2.2 (by decide)).1⟩
